import Mathlib

set_option maxRecDepth 40000

/-!
Verification of the `swar` byte-lane library.

The Go source operates on `uint64` values treated as 8 independent byte
lanes.  We embed machine words as `Nat` together with the invariant
`w < 2 ^ 64`; every Go operation that can wrap (`+`, `-`, `*`) is followed
by an explicit `% 2 ^ 64`, Go `^x` (bitwise complement on `uint64`) becomes
`xor` with `2 ^ 64 - 1`, and Go `a &^ b` becomes `a &&& compl64 b`.
Byte slices become `List Nat` with entries below 256; the zero-copy
`unsafe.Slice` reinterpretations of the codec are modelled by the
little-endian byte order the library's target platforms use, and the Go
panic on indexing element 0 of an empty slice is modelled by `Option.none`.
-/

namespace Swar

/-- Modulus of a 64-bit machine word. -/
def M64 : Nat := 2 ^ 64

/-- Constant `HighBits` from logic.go: bit 7 set in each of the 8 byte lanes. -/
def HighBits : Nat := 0x8080808080808080

/-- Constant `LowBits` from utils.go: bit 0 set in each of the 8 byte lanes. -/
def LowBits : Nat := 0x0101010101010101

/-- Constant `packMask` from utils.go, the gather multiplier. -/
def packMask : Nat := 0x0102040810204080

/-- Constant `laneNotHigh` from math.go: all bits except bit 7 of each lane. -/
def laneNotHigh : Nat := 0x7F7F7F7F7F7F7F7F

/-- Go bitwise complement `^x` on a `uint64`, embedded on `Nat`. -/
def compl64 (x : Nat) : Nat := x ^^^ (M64 - 1)

/-- Go `a &^ b` (and-not) on `uint64`. -/
def andNot (a b : Nat) : Nat := a &&& compl64 b

/-- Go `a - b` on `uint64`: subtraction wrapping modulo `2 ^ 64`. -/
def sub64 (a b : Nat) : Nat := (a + M64 - b) % M64

/-- Byte lane `k` of a word: bits `8*k .. 8*k+7`.  Lane 0 is the least
significant byte, which is the first buffer byte under the codec's
(little-endian memory reinterpretation) convention. -/
def laneAt (k w : Nat) : Nat := w / 2 ^ (8 * k) % 256

/-- Function `Dupe` from utils.go: broadcast a byte to all 8 lanes. -/
def Dupe (c : Nat) : Nat := c * LowBits % M64

/-- Function `ExtractLowBits` from utils.go. -/
def ExtractLowBits (v : Nat) : Nat := v * packMask % M64 / 2 ^ 56 % 256

/-- Function `SubtractBytesWithWrapping` from math.go. -/
def SubtractBytesWithWrapping (a b : Nat) : Nat :=
  sub64 (a ||| HighBits) (andNot b HighBits) ^^^ ((a ^^^ compl64 b) &&& HighBits)

/-- Function `SubtractBytesWithMinimum` from math.go. -/
def SubtractBytesWithMinimum (a b : Nat) : Nat :=
  let diff := sub64 (a ||| HighBits) (andNot b HighBits) ^^^ ((a ^^^ compl64 b) &&& HighBits)
  let bo := ((compl64 a &&& b) ||| ((compl64 a ||| b) &&& diff)) &&& HighBits
  andNot diff (bo / 2 ^ 7 * 0xFF % M64)

/-- Function `AddBytesWithWrapping` from math.go. -/
def AddBytesWithWrapping (a b : Nat) : Nat :=
  let sum := ((a &&& laneNotHigh) + (b &&& laneNotHigh)) % M64
  sum ^^^ ((a ^^^ b) &&& HighBits)

/-- Function `AddBytesWithMaximum` from math.go. -/
def AddBytesWithMaximum (a b : Nat) : Nat :=
  let preSum := ((a &&& laneNotHigh) + (b &&& laneNotHigh)) % M64
  let sum := preSum ^^^ ((a ^^^ b) &&& HighBits)
  let carry := ((a &&& b) ||| ((a ||| b) &&& compl64 sum)) &&& HighBits
  sum ||| (carry / 2 ^ 7 * 0xFF % M64)

/-- Function `AbsoluteDifferenceBetweenBytes` from math.go. -/
def AbsoluteDifferenceBetweenBytes (a b : Nat) : Nat :=
  let d := sub64 a b
  let borrow := ((compl64 a &&& b) ||| ((compl64 a ||| b) &&& d)) &&& HighBits
  let mask := borrow / 2 ^ 7 * 0xFF % M64
  let n := andNot a mask ||| (b &&& mask)
  let m := (a &&& mask) ||| andNot b mask
  sub64 (n ||| HighBits) (andNot m HighBits) ^^^ ((n ^^^ compl64 m) &&& HighBits)

/-- Function `SelectSmallerBytes` from math.go. -/
def SelectSmallerBytes (a b : Nat) : Nat :=
  let d := sub64 a b
  let borrow := ((compl64 a &&& b) ||| ((compl64 a ||| b) &&& d)) &&& HighBits
  let mask := borrow / 2 ^ 7 * 0xFF % M64
  (a &&& mask) ||| andNot b mask

/-- Function `SelectLargerBytes` from math.go. -/
def SelectLargerBytes (a b : Nat) : Nat :=
  let d := sub64 a b
  let borrow := ((compl64 a &&& b) ||| ((compl64 a ||| b) &&& d)) &&& HighBits
  let mask := borrow / 2 ^ 7 * 0xFF % M64
  andNot a mask ||| (b &&& mask)

/-- Function `AverageBytes` from math.go. -/
def AverageBytes (a b : Nat) : Nat :=
  let common := a &&& b
  let diff := (a ^^^ b) &&& 0xFEFEFEFEFEFEFEFE
  (common + diff / 2 ^ 1) % M64

/-- Function `HighBitWhereLess` from logic.go. -/
def HighBitWhereLess (v cm : Nat) : Nat :=
  let d := sub64 (v ||| HighBits) (andNot cm HighBits)
  let sel := ((v &&& (v ^^^ cm)) ||| andNot d (v ^^^ cm)) &&& HighBits
  let hbit := sel ^^^ HighBits
  hbit &&& HighBits

/-- Function `HighBitWhereGreater` from logic.go. -/
def HighBitWhereGreater (v cm : Nat) : Nat :=
  let d := sub64 (cm ||| HighBits) (andNot v HighBits)
  let sel := ((cm &&& (cm ^^^ v)) ||| andNot d (cm ^^^ v)) &&& HighBits
  let hbit := sel ^^^ HighBits
  hbit &&& HighBits

/-- Function `HighBitWhereEqual` from logic.go. -/
def HighBitWhereEqual (v cm : Nat) : Nat :=
  let x := v ^^^ cm
  let y := ((x &&& 0x7F7F7F7F7F7F7F7F) + 0x7F7F7F7F7F7F7F7F) % M64 ||| x
  let hi := compl64 y &&& HighBits
  hi &&& HighBits

/-- Function `SelectByLowBit` from shuffle.go. -/
def SelectByLowBit (a b mask : Nat) : Nat :=
  let byteMask := mask * 0xFF % M64
  (a &&& byteMask) ||| andNot b byteMask

/-- Little-endian recomposition of one lane word from its first 8 bytes;
byte `j` of the consumed buffer prefix occupies bits `8*j`, matching the
memory reinterpretation `unsafe.Slice((*uint64)(...))` on the library's
little-endian target platforms. -/
def laneOfChunk (b0 b1 b2 b3 b4 b5 b6 b7 : Nat) : Nat :=
  b0 + 256 * (b1 + 256 * (b2 + 256 * (b3 + 256 * (b4 + 256 * (b5 + 256 * (b6 + 256 * b7))))))

/-- Group a byte list into full 8-byte lanes, dropping the trailing
remainder of fewer than 8 bytes, as the reinterpreted slice of
`len(b)/8` words does. -/
def chunkLanes : List Nat → List Nat
  | b0 :: b1 :: b2 :: b3 :: b4 :: b5 :: b6 :: b7 :: rest =>
      laneOfChunk b0 b1 b2 b3 b4 b5 b6 b7 :: chunkLanes rest
  | _ => []

/-- Function `BytesToLanes` from utils.go (pack).  The Go body evaluates
`&b[0]` before any length test, so an empty buffer panics with an
index-out-of-range runtime error; the panic is modelled by `none`.
Otherwise it returns `len/8` lanes and `8*(len/8)` consumed bytes. -/
def BytesToLanes (b : List Nat) : Option (List Nat × Nat) :=
  match b with
  | [] => none
  | _ => some (chunkLanes b, b.length / 8 * 8)

/-- Little-endian byte list of one lane word, inverse of `laneOfChunk`. -/
def laneBytes (w : Nat) : List Nat :=
  [w % 256, w / 256 % 256, w / 256 ^ 2 % 256, w / 256 ^ 3 % 256,
   w / 256 ^ 4 % 256, w / 256 ^ 5 % 256, w / 256 ^ 6 % 256, w / 256 ^ 7 % 256]

/-- Concatenate the byte representations of a list of lanes. -/
def lanesBytes : List Nat → List Nat
  | [] => []
  | w :: rest => laneBytes w ++ lanesBytes rest

/-- Function `LanesToBytes` from utils.go (unpack).  The Go body evaluates
`&lanes[0]` before any length test, so an empty lane slice panics; the
panic is modelled by `none`. -/
def LanesToBytes (lanes : List Nat) : Option (List Nat) :=
  match lanes with
  | [] => none
  | _ => some (lanesBytes lanes)

/-- Round trip of the spec sentence `unpack(pack(S).lanes) + S[pack(S).consumed:]`,
with `none` wherever the code panics. -/
def packUnpackRoundTrip (s : List Nat) : Option (List Nat) :=
  match BytesToLanes s with
  | none => none
  | some (lanes, consumed) =>
    match LanesToBytes lanes with
    | none => none
    | some bs => some (bs ++ s.drop consumed)

/-!
Byte-level facts, each settled by checking the 256 byte values (or the
two values of a single bit).  They turn the bitwise operations on one
lane into plain arithmetic, so that `omega` can finish the lane proofs.
-/

theorem byte_and127 : ∀ x, x < 256 → x &&& 127 = x % 128 := by decide

theorem byte_and128 : ∀ x, x < 256 → x &&& 128 = 128 * (x / 128) := by decide

theorem byte_and254 : ∀ x, x < 256 → x &&& 254 = 2 * (x / 2) := by decide

theorem byte_and255 : ∀ x, x < 256 → x &&& 255 = x := by decide

theorem byte_or128 : ∀ x, x < 256 → (x ||| 128) = x % 128 + 128 := by decide

theorem byte_xor255 : ∀ x, x < 256 → x ^^^ 255 = 255 - x := by decide

theorem bit7_and : ∀ s, s ≤ 1 → ∀ t, t ≤ 1 → 128 * s &&& 128 * t = 128 * min s t := by decide

theorem bit7_or : ∀ s, s ≤ 1 → ∀ t, t ≤ 1 → (128 * s ||| 128 * t) = 128 * max s t := by decide

theorem bit7_xor : ∀ s, s ≤ 1 → ∀ t, t ≤ 1 →
    128 * s ^^^ 128 * t = 128 * (max s t - min s t) := by decide

theorem byte_xor_bit7 : ∀ u, u < 256 → ∀ s, s ≤ 1 →
    u ^^^ 128 * s = u + 128 * s - 256 * min s (u / 128) := by decide

theorem byte_or_sat : ∀ x, x < 256 → ∀ t, t ≤ 1 → (x ||| 255 * t) = max x (255 * t) := by decide

theorem byte_and_sel : ∀ x, x < 256 → ∀ t, t ≤ 1 → x &&& 255 * t = min x (255 * t) := by decide

theorem byte_and_selc : ∀ x, x < 256 → ∀ t, t ≤ 1 →
    x &&& (255 - 255 * t) = x - min x (255 * t) := by decide

theorem byte_plus127_and128 : ∀ w, w < 128 → (w + 127) &&& 128 = 128 * min w 1 := by decide

/-- Masking distributes into a conjunction of maskings. -/
theorem mask_and (x y m : Nat) : (x &&& y) &&& m = (x &&& m) &&& (y &&& m) := by
  apply Nat.eq_of_testBit_eq
  intro i
  simp only [Nat.testBit_and]
  cases Nat.testBit x i <;> cases Nat.testBit y i <;> cases Nat.testBit m i <;> rfl

/-- Masking distributes over a disjunction. -/
theorem mask_or (x y m : Nat) : (x ||| y) &&& m = (x &&& m) ||| (y &&& m) := by
  apply Nat.eq_of_testBit_eq
  intro i
  simp only [Nat.testBit_and, Nat.testBit_or]
  cases Nat.testBit x i <;> cases Nat.testBit y i <;> cases Nat.testBit m i <;> rfl

/-- Classic binary identity: the carry word of an addition is the conjunction,
the carry-free part is the exclusive or. -/
theorem two_mul_and_add_xor (a : Nat) : ∀ b, 2 * (a &&& b) + (a ^^^ b) = a + b := by
  induction a using Nat.strong_induction_on with
  | _ a ih =>
    intro b
    rcases Nat.eq_zero_or_pos a with hz | hp
    · subst hz
      simp [Nat.zero_and, Nat.zero_xor]
    · have hlt : a / 2 < a := Nat.div_lt_self hp (by norm_num)
      have IH := ih (a / 2) hlt (b / 2)
      have hand : a &&& b = 2 * (a / 2 &&& b / 2) + (a % 2 &&& b % 2) := by
        have h1 : (a &&& b) % 2 = a % 2 &&& b % 2 := by
          rw [← Nat.and_one_is_mod, mask_and, Nat.and_one_is_mod, Nat.and_one_is_mod]
        have h2 : (a &&& b) / 2 = a / 2 &&& b / 2 := Nat.and_div_two
        omega
      have hxor : a ^^^ b = 2 * (a / 2 ^^^ b / 2) + (a % 2 ^^^ b % 2) := by
        have h1 : (a ^^^ b) % 2 = a % 2 ^^^ b % 2 := by
          rw [← Nat.and_one_is_mod, Nat.and_xor_distrib_right, Nat.and_one_is_mod,
            Nat.and_one_is_mod]
        have h2 : (a ^^^ b) / 2 = a / 2 ^^^ b / 2 := Nat.xor_div_two
        omega
      have hbit : ∀ u, u ≤ 1 → ∀ v, v ≤ 1 → 2 * (u &&& v) + (u ^^^ v) = u + v := by decide
      have hu : a % 2 ≤ 1 := by omega
      have hv : b % 2 ≤ 1 := by omega
      have := hbit (a % 2) hu (b % 2) hv
      omega

/-!
Lane extraction and its algebra.
-/

theorem laneAt_lt (k w : Nat) : laneAt k w < 256 := Nat.mod_lt _ (by norm_num)

theorem laneAt_eq_shift (k w : Nat) : laneAt k w = w >>> (8 * k) % 2 ^ 8 := by
  simp [laneAt, Nat.shiftRight_eq_div_pow]

theorem laneAt_and (k x y : Nat) : laneAt k (x &&& y) = laneAt k x &&& laneAt k y := by
  apply Nat.eq_of_testBit_eq
  intro i
  simp only [laneAt_eq_shift, Nat.testBit_mod_two_pow, Nat.testBit_shiftRight, Nat.testBit_and]
  cases Nat.testBit x (8 * k + i) <;> cases Nat.testBit y (8 * k + i) <;>
    cases decide (i < 8) <;> rfl

theorem laneAt_or (k x y : Nat) : laneAt k (x ||| y) = (laneAt k x ||| laneAt k y) := by
  apply Nat.eq_of_testBit_eq
  intro i
  simp only [laneAt_eq_shift, Nat.testBit_mod_two_pow, Nat.testBit_shiftRight, Nat.testBit_or]
  cases Nat.testBit x (8 * k + i) <;> cases Nat.testBit y (8 * k + i) <;>
    cases decide (i < 8) <;> rfl

theorem laneAt_xor (k x y : Nat) : laneAt k (x ^^^ y) = laneAt k x ^^^ laneAt k y := by
  apply Nat.eq_of_testBit_eq
  intro i
  simp only [laneAt_eq_shift, Nat.testBit_mod_two_pow, Nat.testBit_shiftRight, Nat.testBit_xor]
  cases Nat.testBit x (8 * k + i) <;> cases Nat.testBit y (8 * k + i) <;>
    cases decide (i < 8) <;> rfl

theorem laneAt_HighBits : ∀ k, k < 8 → laneAt k HighBits = 128 := by decide

theorem laneAt_laneNotHigh : ∀ k, k < 8 → laneAt k laneNotHigh = 127 := by decide

theorem laneAt_allOnes : ∀ k, k < 8 → laneAt k (M64 - 1) = 255 := by decide

theorem laneAt_FE : ∀ k, k < 8 → laneAt k 0xFEFEFEFEFEFEFEFE = 254 := by decide

theorem laneAt_compl64 (k x : Nat) (hk : k < 8) :
    laneAt k (compl64 x) = laneAt k x ^^^ 255 := by
  rw [compl64, laneAt_xor, laneAt_allOnes k hk]

theorem lane_decomp (w : Nat) (hw : w < 2 ^ 64) :
    w = laneAt 0 w + 2 ^ 8 * laneAt 1 w + 2 ^ 16 * laneAt 2 w + 2 ^ 24 * laneAt 3 w +
      2 ^ 32 * laneAt 4 w + 2 ^ 40 * laneAt 5 w + 2 ^ 48 * laneAt 6 w + 2 ^ 56 * laneAt 7 w := by
  simp only [laneAt]
  omega

/-- Selector for the eight lanes of an explicit sum. -/
def pick8 (k z0 z1 z2 z3 z4 z5 z6 z7 : Nat) : Nat :=
  match k with
  | 0 => z0
  | 1 => z1
  | 2 => z2
  | 3 => z3
  | 4 => z4
  | 5 => z5
  | 6 => z6
  | 7 => z7
  | _ => 0

theorem laneAt_combo (z0 z1 z2 z3 z4 z5 z6 z7 : Nat) (b0 : z0 < 256) (b1 : z1 < 256)
    (b2 : z2 < 256) (b3 : z3 < 256) (b4 : z4 < 256) (b5 : z5 < 256) (b6 : z6 < 256)
    (b7 : z7 < 256) : ∀ k, k < 8 →
    laneAt k (z0 + 2 ^ 8 * z1 + 2 ^ 16 * z2 + 2 ^ 24 * z3 + 2 ^ 32 * z4 + 2 ^ 40 * z5 +
      2 ^ 48 * z6 + 2 ^ 56 * z7) = pick8 k z0 z1 z2 z3 z4 z5 z6 z7 := by
  intro k hk
  simp only [laneAt]
  interval_cases k <;> simp only [pick8] <;> omega

theorem combo_lt (z0 z1 z2 z3 z4 z5 z6 z7 : Nat) (b0 : z0 < 256) (b1 : z1 < 256)
    (b2 : z2 < 256) (b3 : z3 < 256) (b4 : z4 < 256) (b5 : z5 < 256) (b6 : z6 < 256)
    (b7 : z7 < 256) :
    z0 + 2 ^ 8 * z1 + 2 ^ 16 * z2 + 2 ^ 24 * z3 + 2 ^ 32 * z4 + 2 ^ 40 * z5 +
      2 ^ 48 * z6 + 2 ^ 56 * z7 < 2 ^ 64 := by
  omega

theorem eq_of_laneAt_eq (x y : Nat) (hx : x < 2 ^ 64) (hy : y < 2 ^ 64)
    (h : ∀ k, k < 8 → laneAt k x = laneAt k y) : x = y := by
  have dx := lane_decomp x hx
  have dy := lane_decomp y hy
  have h0 := h 0 (by norm_num)
  have h1 := h 1 (by norm_num)
  have h2 := h 2 (by norm_num)
  have h3 := h 3 (by norm_num)
  have h4 := h 4 (by norm_num)
  have h5 := h 5 (by norm_num)
  have h6 := h 6 (by norm_num)
  have h7 := h 7 (by norm_num)
  omega

theorem laneAt_add (x y : Nat) (hx : x < 2 ^ 64) (hy : y < 2 ^ 64)
    (hs : ∀ j, j < 8 → laneAt j x + laneAt j y < 256) :
    ∀ k, k < 8 → laneAt k (x + y) = laneAt k x + laneAt k y := by
  have dx := lane_decomp x hx
  have dy := lane_decomp y hy
  have hxy : x + y = (laneAt 0 x + laneAt 0 y) + 2 ^ 8 * (laneAt 1 x + laneAt 1 y) +
      2 ^ 16 * (laneAt 2 x + laneAt 2 y) + 2 ^ 24 * (laneAt 3 x + laneAt 3 y) +
      2 ^ 32 * (laneAt 4 x + laneAt 4 y) + 2 ^ 40 * (laneAt 5 x + laneAt 5 y) +
      2 ^ 48 * (laneAt 6 x + laneAt 6 y) + 2 ^ 56 * (laneAt 7 x + laneAt 7 y) := by
    omega
  intro k hk
  rw [hxy, laneAt_combo _ _ _ _ _ _ _ _ (hs 0 (by norm_num)) (hs 1 (by norm_num))
    (hs 2 (by norm_num)) (hs 3 (by norm_num)) (hs 4 (by norm_num)) (hs 5 (by norm_num))
    (hs 6 (by norm_num)) (hs 7 (by norm_num)) k hk]
  interval_cases k <;> rfl

theorem le_of_lanes_le (x y : Nat) (hx : x < 2 ^ 64) (hy : y < 2 ^ 64)
    (hs : ∀ j, j < 8 → laneAt j y ≤ laneAt j x) : y ≤ x := by
  have dx := lane_decomp x hx
  have dy := lane_decomp y hy
  have h0 := hs 0 (by norm_num)
  have h1 := hs 1 (by norm_num)
  have h2 := hs 2 (by norm_num)
  have h3 := hs 3 (by norm_num)
  have h4 := hs 4 (by norm_num)
  have h5 := hs 5 (by norm_num)
  have h6 := hs 6 (by norm_num)
  have h7 := hs 7 (by norm_num)
  omega

theorem laneAt_sub (x y : Nat) (hx : x < 2 ^ 64) (hy : y < 2 ^ 64)
    (hs : ∀ j, j < 8 → laneAt j y ≤ laneAt j x) :
    ∀ k, k < 8 → laneAt k (x - y) = laneAt k x - laneAt k y := by
  obtain ⟨z0, hz0⟩ := Nat.le.dest (hs 0 (by norm_num))
  obtain ⟨z1, hz1⟩ := Nat.le.dest (hs 1 (by norm_num))
  obtain ⟨z2, hz2⟩ := Nat.le.dest (hs 2 (by norm_num))
  obtain ⟨z3, hz3⟩ := Nat.le.dest (hs 3 (by norm_num))
  obtain ⟨z4, hz4⟩ := Nat.le.dest (hs 4 (by norm_num))
  obtain ⟨z5, hz5⟩ := Nat.le.dest (hs 5 (by norm_num))
  obtain ⟨z6, hz6⟩ := Nat.le.dest (hs 6 (by norm_num))
  obtain ⟨z7, hz7⟩ := Nat.le.dest (hs 7 (by norm_num))
  have hxy : x - y = z0 + 2 ^ 8 * z1 + 2 ^ 16 * z2 + 2 ^ 24 * z3 + 2 ^ 32 * z4 +
      2 ^ 40 * z5 + 2 ^ 48 * z6 + 2 ^ 56 * z7 := by
    have dx := lane_decomp x hx
    have dy := lane_decomp y hy
    omega
  have b0 : z0 < 256 := by clear hxy; have := laneAt_lt 0 x; omega
  have b1 : z1 < 256 := by clear hxy; have := laneAt_lt 1 x; omega
  have b2 : z2 < 256 := by clear hxy; have := laneAt_lt 2 x; omega
  have b3 : z3 < 256 := by clear hxy; have := laneAt_lt 3 x; omega
  have b4 : z4 < 256 := by clear hxy; have := laneAt_lt 4 x; omega
  have b5 : z5 < 256 := by clear hxy; have := laneAt_lt 5 x; omega
  have b6 : z6 < 256 := by clear hxy; have := laneAt_lt 6 x; omega
  have b7 : z7 < 256 := by clear hxy; have := laneAt_lt 7 x; omega
  intro k hk
  rw [hxy, laneAt_combo _ _ _ _ _ _ _ _ b0 b1 b2 b3 b4 b5 b6 b7 k hk]
  clear hxy hs hx hy
  interval_cases k <;> simp only [pick8] <;> omega

theorem sub64_eq_sub (x y : Nat) (hx : x < 2 ^ 64) (hle : y ≤ x) : sub64 x y = x - y := by
  simp only [sub64, M64]
  omega

theorem laneAt_mul255 (f : Nat) (hf : f < 2 ^ 64) (h1 : ∀ j, j < 8 → laneAt j f ≤ 1) :
    f * 255 < 2 ^ 64 ∧ ∀ k, k < 8 → laneAt k (f * 255) = 255 * laneAt k f := by
  have i0 := h1 0 (by norm_num)
  have i1 := h1 1 (by norm_num)
  have i2 := h1 2 (by norm_num)
  have i3 := h1 3 (by norm_num)
  have i4 := h1 4 (by norm_num)
  have i5 := h1 5 (by norm_num)
  have i6 := h1 6 (by norm_num)
  have i7 := h1 7 (by norm_num)
  have c0 : 255 * laneAt 0 f < 256 := by omega
  have c1 : 255 * laneAt 1 f < 256 := by omega
  have c2 : 255 * laneAt 2 f < 256 := by omega
  have c3 : 255 * laneAt 3 f < 256 := by omega
  have c4 : 255 * laneAt 4 f < 256 := by omega
  have c5 : 255 * laneAt 5 f < 256 := by omega
  have c6 : 255 * laneAt 6 f < 256 := by omega
  have c7 : 255 * laneAt 7 f < 256 := by omega
  have df := lane_decomp f hf
  have hm : f * 255 = 255 * laneAt 0 f + 2 ^ 8 * (255 * laneAt 1 f) +
      2 ^ 16 * (255 * laneAt 2 f) + 2 ^ 24 * (255 * laneAt 3 f) + 2 ^ 32 * (255 * laneAt 4 f) +
      2 ^ 40 * (255 * laneAt 5 f) + 2 ^ 48 * (255 * laneAt 6 f) +
      2 ^ 56 * (255 * laneAt 7 f) := by
    nth_rewrite 1 [df]
    ring
  constructor
  · rw [hm]
    exact combo_lt _ _ _ _ _ _ _ _ c0 c1 c2 c3 c4 c5 c6 c7
  · intro k hk
    rw [hm, laneAt_combo _ _ _ _ _ _ _ _ c0 c1 c2 c3 c4 c5 c6 c7 k hk]
    interval_cases k <;> rfl

theorem laneAt_div128 (x : Nat) (hx : x < 2 ^ 64) (h : ∀ j, j < 8 → laneAt j x % 128 = 0) :
    ∀ k, k < 8 → laneAt k (x / 128) = laneAt k x / 128 := by
  obtain ⟨m0, hm0⟩ := Nat.dvd_of_mod_eq_zero (h 0 (by norm_num))
  obtain ⟨m1, hm1⟩ := Nat.dvd_of_mod_eq_zero (h 1 (by norm_num))
  obtain ⟨m2, hm2⟩ := Nat.dvd_of_mod_eq_zero (h 2 (by norm_num))
  obtain ⟨m3, hm3⟩ := Nat.dvd_of_mod_eq_zero (h 3 (by norm_num))
  obtain ⟨m4, hm4⟩ := Nat.dvd_of_mod_eq_zero (h 4 (by norm_num))
  obtain ⟨m5, hm5⟩ := Nat.dvd_of_mod_eq_zero (h 5 (by norm_num))
  obtain ⟨m6, hm6⟩ := Nat.dvd_of_mod_eq_zero (h 6 (by norm_num))
  obtain ⟨m7, hm7⟩ := Nat.dvd_of_mod_eq_zero (h 7 (by norm_num))
  have b0 : m0 < 256 := by have := laneAt_lt 0 x; omega
  have b1 : m1 < 256 := by have := laneAt_lt 1 x; omega
  have b2 : m2 < 256 := by have := laneAt_lt 2 x; omega
  have b3 : m3 < 256 := by have := laneAt_lt 3 x; omega
  have b4 : m4 < 256 := by have := laneAt_lt 4 x; omega
  have b5 : m5 < 256 := by have := laneAt_lt 5 x; omega
  have b6 : m6 < 256 := by have := laneAt_lt 6 x; omega
  have b7 : m7 < 256 := by have := laneAt_lt 7 x; omega
  have hx128 : x = 128 * (m0 + 2 ^ 8 * m1 + 2 ^ 16 * m2 + 2 ^ 24 * m3 + 2 ^ 32 * m4 +
      2 ^ 40 * m5 + 2 ^ 48 * m6 + 2 ^ 56 * m7) := by
    have dx := lane_decomp x hx
    rw [hm0, hm1, hm2, hm3, hm4, hm5, hm6, hm7] at dx
    rw [dx]
    ring
  have hq : x / 128 = m0 + 2 ^ 8 * m1 + 2 ^ 16 * m2 + 2 ^ 24 * m3 + 2 ^ 32 * m4 +
      2 ^ 40 * m5 + 2 ^ 48 * m6 + 2 ^ 56 * m7 := by
    rw [hx128]
    exact Nat.mul_div_cancel_left _ (by norm_num)
  intro k hk
  rw [hq, laneAt_combo _ _ _ _ _ _ _ _ b0 b1 b2 b3 b4 b5 b6 b7 k hk]
  clear hq hx128 h hx
  interval_cases k <;> simp only [pick8] <;> omega

theorem laneAt_div2 (x : Nat) (hx : x < 2 ^ 64) (h : ∀ j, j < 8 → laneAt j x % 2 = 0) :
    ∀ k, k < 8 → laneAt k (x / 2) = laneAt k x / 2 := by
  obtain ⟨m0, hm0⟩ := Nat.dvd_of_mod_eq_zero (h 0 (by norm_num))
  obtain ⟨m1, hm1⟩ := Nat.dvd_of_mod_eq_zero (h 1 (by norm_num))
  obtain ⟨m2, hm2⟩ := Nat.dvd_of_mod_eq_zero (h 2 (by norm_num))
  obtain ⟨m3, hm3⟩ := Nat.dvd_of_mod_eq_zero (h 3 (by norm_num))
  obtain ⟨m4, hm4⟩ := Nat.dvd_of_mod_eq_zero (h 4 (by norm_num))
  obtain ⟨m5, hm5⟩ := Nat.dvd_of_mod_eq_zero (h 5 (by norm_num))
  obtain ⟨m6, hm6⟩ := Nat.dvd_of_mod_eq_zero (h 6 (by norm_num))
  obtain ⟨m7, hm7⟩ := Nat.dvd_of_mod_eq_zero (h 7 (by norm_num))
  have b0 : m0 < 256 := by have := laneAt_lt 0 x; omega
  have b1 : m1 < 256 := by have := laneAt_lt 1 x; omega
  have b2 : m2 < 256 := by have := laneAt_lt 2 x; omega
  have b3 : m3 < 256 := by have := laneAt_lt 3 x; omega
  have b4 : m4 < 256 := by have := laneAt_lt 4 x; omega
  have b5 : m5 < 256 := by have := laneAt_lt 5 x; omega
  have b6 : m6 < 256 := by have := laneAt_lt 6 x; omega
  have b7 : m7 < 256 := by have := laneAt_lt 7 x; omega
  have hx2 : x = 2 * (m0 + 2 ^ 8 * m1 + 2 ^ 16 * m2 + 2 ^ 24 * m3 + 2 ^ 32 * m4 +
      2 ^ 40 * m5 + 2 ^ 48 * m6 + 2 ^ 56 * m7) := by
    have dx := lane_decomp x hx
    rw [hm0, hm1, hm2, hm3, hm4, hm5, hm6, hm7] at dx
    rw [dx]
    ring
  have hq : x / 2 = m0 + 2 ^ 8 * m1 + 2 ^ 16 * m2 + 2 ^ 24 * m3 + 2 ^ 32 * m4 +
      2 ^ 40 * m5 + 2 ^ 48 * m6 + 2 ^ 56 * m7 := by
    rw [hx2]
    exact Nat.mul_div_cancel_left _ (by norm_num)
  have b0 : m0 < 256 := by have := laneAt_lt 0 x; omega
  have b1 : m1 < 256 := by have := laneAt_lt 1 x; omega
  have b2 : m2 < 256 := by have := laneAt_lt 2 x; omega
  have b3 : m3 < 256 := by have := laneAt_lt 3 x; omega
  have b4 : m4 < 256 := by have := laneAt_lt 4 x; omega
  have b5 : m5 < 256 := by have := laneAt_lt 5 x; omega
  have b6 : m6 < 256 := by have := laneAt_lt 6 x; omega
  have b7 : m7 < 256 := by have := laneAt_lt 7 x; omega
  intro k hk
  rw [hq, laneAt_combo _ _ _ _ _ _ _ _ b0 b1 b2 b3 b4 b5 b6 b7 k hk]
  clear hq hx2 h hx
  interval_cases k <;> simp only [pick8] <;> omega

/-!
Characterisation of the cross-lane borrow of the full-width wrapped
difference, used by min, max and absolute difference.
-/

theorem lane_bit (a k : Nat) (hk : k < 8) :
    laneAt k a / 128 = a % 2 ^ (8 * k + 8) / 2 ^ (8 * k + 7) := by
  simp only [laneAt]
  interval_cases k <;> omega

theorem lane_bit_compl (a k : Nat) (hk : k < 8) :
    (255 - laneAt k a) / 128 = 1 - a % 2 ^ (8 * k + 8) / 2 ^ (8 * k + 7) := by
  simp only [laneAt]
  interval_cases k <;> omega

theorem dlane_bit (a b k : Nat) (ha : a < 2 ^ 64) (hb : b < 2 ^ 64) (hk : k < 8) :
    laneAt k (sub64 a b) / 128 =
      (a % 2 ^ (8 * k + 8) + 2 ^ (8 * k + 8) - b % 2 ^ (8 * k + 8)) % 2 ^ (8 * k + 8) /
        2 ^ (8 * k + 7) := by
  simp only [laneAt, sub64, M64]
  interval_cases k <;> omega

theorem borrow_eval (a b k : Nat) (hk : k < 8) :
    128 * max (min (1 - a % 2 ^ (8 * k + 8) / 2 ^ (8 * k + 7)) (b % 2 ^ (8 * k + 8) / 2 ^ (8 * k + 7)))
        (min (max (1 - a % 2 ^ (8 * k + 8) / 2 ^ (8 * k + 7)) (b % 2 ^ (8 * k + 8) / 2 ^ (8 * k + 7)))
          ((a % 2 ^ (8 * k + 8) + 2 ^ (8 * k + 8) - b % 2 ^ (8 * k + 8)) % 2 ^ (8 * k + 8) /
            2 ^ (8 * k + 7))) =
      if a % 2 ^ (8 * k + 8) < b % 2 ^ (8 * k + 8) then 128 else 0 := by
  interval_cases k <;> split_ifs <;> omega

theorem lane_le_of_prefix_le (a b k : Nat) (hk : k < 8)
    (h : a % 2 ^ (8 * k + 8) ≤ b % 2 ^ (8 * k + 8)) : laneAt k a ≤ laneAt k b := by
  simp only [laneAt] at *
  interval_cases k <;> omega

/-!
Per-operation lane lemmas.
-/

theorem bit7_xor128 : ∀ s, s ≤ 1 → 128 * s ^^^ 128 = 128 * (1 - s) := by decide

theorem bit7_and128 : ∀ s, s ≤ 1 → 128 * s &&& 128 = 128 * s := by decide

theorem laneAt_7F : ∀ k, k < 8 → laneAt k 0x7F7F7F7F7F7F7F7F = 127 := by decide

theorem byte_xor_div128 (u v : Nat) (hu : u < 256) (hv : v < 256) :
    (u ^^^ v) / 128 = max (u / 128) (v / 128) - min (u / 128) (v / 128) := by
  have hxlt : u ^^^ v < 256 := by
    have h := Nat.xor_lt_two_pow (show u < 2 ^ 8 by omega) (show v < 2 ^ 8 by omega)
    omega
  have h1 : (u ^^^ v) &&& 128 = u &&& 128 ^^^ v &&& 128 := Nat.and_xor_distrib_right
  rw [byte_and128 u hu, byte_and128 v hv, bit7_xor _ (by omega) _ (by omega)] at h1
  have h2 : (u ^^^ v) &&& 128 = 128 * ((u ^^^ v) / 128) := byte_and128 _ hxlt
  omega

theorem xor_lt_256 (u v : Nat) (hu : u < 256) (hv : v < 256) : u ^^^ v < 256 := by
  have h := Nat.xor_lt_two_pow (show u < 2 ^ 8 by omega) (show v < 2 ^ 8 by omega)
  omega

theorem HighBits_lt : HighBits < 2 ^ 64 := by norm_num [HighBits]

/-- Lane value of the guard-bit wrapped subtraction formula shared by
`SubtractBytesWithWrapping` and the tail of `AbsoluteDifferenceBetweenBytes`. -/
theorem subWrapAux_lane (x y : Nat) (hx : x < 2 ^ 64) (hy : y < 2 ^ 64) :
    ∀ k, k < 8 →
    laneAt k (sub64 (x ||| HighBits) (andNot y HighBits) ^^^ ((x ^^^ compl64 y) &&& HighBits)) =
      (laneAt k x + 256 - laneAt k y) % 256 := by
  have hM : (x ||| HighBits) < 2 ^ 64 := Nat.or_lt_two_pow hx HighBits_lt
  have hS : andNot y HighBits < 2 ^ 64 := Nat.lt_of_le_of_lt Nat.and_le_left hy
  have hc : (128 : Nat) ^^^ 255 = 127 := by decide
  have hMl : ∀ j, j < 8 → laneAt j (x ||| HighBits) = laneAt j x % 128 + 128 := by
    intro j hj
    rw [laneAt_or, laneAt_HighBits j hj, byte_or128 _ (laneAt_lt j x)]
  have hSl : ∀ j, j < 8 → laneAt j (andNot y HighBits) = laneAt j y % 128 := by
    intro j hj
    rw [andNot, laneAt_and, laneAt_compl64 j HighBits hj, laneAt_HighBits j hj, hc,
      byte_and127 _ (laneAt_lt j y)]
  have hle : ∀ j, j < 8 → laneAt j (andNot y HighBits) ≤ laneAt j (x ||| HighBits) := by
    intro j hj
    rw [hMl j hj, hSl j hj]
    omega
  have hsub : sub64 (x ||| HighBits) (andNot y HighBits) =
      (x ||| HighBits) - andNot y HighBits :=
    sub64_eq_sub _ _ hM (le_of_lanes_le _ _ hM hS hle)
  intro k hk
  have hxk := laneAt_lt k x
  have hyk := laneAt_lt k y
  rw [laneAt_xor, hsub, laneAt_sub _ _ hM hS hle k hk, hMl k hk, hSl k hk, laneAt_and,
    laneAt_HighBits k hk, laneAt_xor, laneAt_compl64 k y hk, byte_xor255 _ hyk,
    Nat.and_xor_distrib_right, byte_and128 _ hxk, byte_and128 _ (by omega),
    bit7_xor _ (by omega) _ (by omega), byte_xor_bit7 _ (by omega) _ (by omega)]
  omega

/-- Lane value of `SubtractBytesWithWrapping`. -/
theorem subWrap_lane (a b : Nat) (ha : a < 2 ^ 64) (hb : b < 2 ^ 64) :
    ∀ k, k < 8 →
    laneAt k (SubtractBytesWithWrapping a b) = (laneAt k a + 256 - laneAt k b) % 256 :=
  subWrapAux_lane a b ha hb

theorem M64_eq : M64 = 2 ^ 64 := rfl

theorem AddBytesWithWrapping_eq (a b : Nat) : AddBytesWithWrapping a b =
    ((a &&& laneNotHigh) + (b &&& laneNotHigh)) % M64 ^^^ ((a ^^^ b) &&& HighBits) := rfl

theorem laneNotHigh_lt : laneNotHigh < 2 ^ 63 := by norm_num [laneNotHigh]

/-- Lane value of `AddBytesWithWrapping`. -/
theorem addWrap_lane (a b : Nat) (ha : a < 2 ^ 64) (hb : b < 2 ^ 64) :
    ∀ k, k < 8 → laneAt k (AddBytesWithWrapping a b) = (laneAt k a + laneAt k b) % 256 := by
  have ha7 : a &&& laneNotHigh < 2 ^ 64 := Nat.lt_of_le_of_lt Nat.and_le_left ha
  have hb7 : b &&& laneNotHigh < 2 ^ 64 := Nat.lt_of_le_of_lt Nat.and_le_left hb
  have hsum : (a &&& laneNotHigh) + (b &&& laneNotHigh) < 2 ^ 64 := by
    have h1 : a &&& laneNotHigh ≤ laneNotHigh := Nat.and_le_right
    have h2 : b &&& laneNotHigh ≤ laneNotHigh := Nat.and_le_right
    have h3 := laneNotHigh_lt
    omega
  have hll : ∀ j, j < 8 → laneAt j (a &&& laneNotHigh) = laneAt j a % 128 := by
    intro j hj
    rw [laneAt_and, laneAt_laneNotHigh j hj, byte_and127 _ (laneAt_lt j a)]
  have hlr : ∀ j, j < 8 → laneAt j (b &&& laneNotHigh) = laneAt j b % 128 := by
    intro j hj
    rw [laneAt_and, laneAt_laneNotHigh j hj, byte_and127 _ (laneAt_lt j b)]
  have hlane : ∀ j, j < 8 →
      laneAt j (a &&& laneNotHigh) + laneAt j (b &&& laneNotHigh) < 256 := by
    intro j hj
    rw [hll j hj, hlr j hj]
    omega
  intro k hk
  have hxk := laneAt_lt k a
  have hyk := laneAt_lt k b
  rw [AddBytesWithWrapping_eq, M64_eq, Nat.mod_eq_of_lt hsum,
    laneAt_xor, laneAt_add _ _ ha7 hb7 hlane k hk, hll k hk, hlr k hk, laneAt_and,
    laneAt_HighBits k hk, laneAt_xor, Nat.and_xor_distrib_right, byte_and128 _ hxk,
    byte_and128 _ hyk, bit7_xor _ (by omega) _ (by omega),
    byte_xor_bit7 _ (by omega) _ (by omega)]
  omega

theorem compl64_lt (x : Nat) (hx : x < 2 ^ 64) : compl64 x < 2 ^ 64 := by
  have h := Nat.xor_lt_two_pow (show x < 2 ^ 64 from hx)
    (show M64 - 1 < 2 ^ 64 by norm_num [M64])
  simpa [compl64] using h

/-- Cumulative borrow word of the wrapped full-width difference: lane `k`
holds `0x80` exactly when the low `k+1` lanes of `a` are less than those
of `b`. -/
theorem borrowMask_lane (a b : Nat) (ha : a < 2 ^ 64) (hb : b < 2 ^ 64) :
    ∀ k, k < 8 →
    laneAt k (((compl64 a &&& b) ||| ((compl64 a ||| b) &&& sub64 a b)) &&& HighBits) =
      if a % 2 ^ (8 * k + 8) < b % 2 ^ (8 * k + 8) then 128 else 0 := by
  intro k hk
  have hxk := laneAt_lt k a
  have hyk := laneAt_lt k b
  have hdk := laneAt_lt k (sub64 a b)
  have hq1 : (255 - laneAt k a) / 128 ≤ 1 := by omega
  have hq2 : laneAt k b / 128 ≤ 1 := by omega
  have hq3 : laneAt k (sub64 a b) / 128 ≤ 1 := by omega
  rw [laneAt_and, laneAt_HighBits k hk, laneAt_or, laneAt_and, laneAt_and, laneAt_or,
    laneAt_compl64 k a hk, byte_xor255 _ hxk,
    mask_or ((255 - laneAt k a) &&& laneAt k b)
      (((255 - laneAt k a) ||| laneAt k b) &&& laneAt k (sub64 a b)) 128,
    mask_and (255 - laneAt k a) (laneAt k b) 128,
    mask_and ((255 - laneAt k a) ||| laneAt k b) (laneAt k (sub64 a b)) 128,
    mask_or (255 - laneAt k a) (laneAt k b) 128,
    byte_and128 (255 - laneAt k a) (by omega),
    byte_and128 (laneAt k b) hyk, byte_and128 (laneAt k (sub64 a b)) hdk,
    bit7_and _ hq1 _ hq2]
  have hqm : max ((255 - laneAt k a) / 128) (laneAt k b / 128) ≤ 1 := by omega
  have hqmin : min ((255 - laneAt k a) / 128) (laneAt k b / 128) ≤ 1 := by omega
  rw [bit7_or _ hq1 _ hq2, bit7_and _ hqm _ hq3]
  have hq4 : min (max ((255 - laneAt k a) / 128) (laneAt k b / 128))
      (laneAt k (sub64 a b) / 128) ≤ 1 := by omega
  rw [bit7_or _ hqmin _ hq4, lane_bit b k hk, lane_bit_compl a k hk, dlane_bit a b k ha hb hk]
  exact borrow_eval a b k hk

/-- Lane value of the clamp mask `(w &&& HighBits) >> 7 * 0xFF` used by the
saturating operations and the min/max/absolute-difference selections. -/
theorem highMask_lane (C : Nat) :
    ∀ k, k < 8 → laneAt k ((C &&& HighBits) / 2 ^ 7 * 0xFF % M64) =
      255 * (laneAt k (C &&& HighBits) / 128) := by
  have hW : C &&& HighBits < 2 ^ 64 := Nat.and_lt_two_pow C HighBits_lt
  have hWl : ∀ j, j < 8 → laneAt j (C &&& HighBits) % 128 = 0 := by
    intro j hj
    rw [laneAt_and, laneAt_HighBits j hj, byte_and128 _ (laneAt_lt j C)]
    omega
  have hdiv : C &&& HighBits < 2 ^ 64 := hW
  have h128 : (2 ^ 7 : Nat) = 128 := by norm_num
  have hq : (C &&& HighBits) / 128 < 2 ^ 64 :=
    Nat.lt_of_le_of_lt (Nat.div_le_self _ _) hW
  have hq1 : ∀ j, j < 8 → laneAt j ((C &&& HighBits) / 128) ≤ 1 := by
    intro j hj
    rw [laneAt_div128 _ hW hWl j hj]
    have := laneAt_lt j (C &&& HighBits)
    omega
  obtain ⟨hmul_lt, hmul⟩ := laneAt_mul255 _ hq hq1
  intro k hk
  rw [h128, M64_eq, Nat.mod_eq_of_lt hmul_lt, hmul k hk, laneAt_div128 _ hW hWl k hk]

theorem SelectSmallerBytes_eq (a b : Nat) : SelectSmallerBytes a b =
    (a &&& ((((compl64 a &&& b) ||| ((compl64 a ||| b) &&& sub64 a b)) &&& HighBits) / 2 ^ 7 *
      0xFF % M64)) |||
    (b &&& compl64 ((((compl64 a &&& b) ||| ((compl64 a ||| b) &&& sub64 a b)) &&& HighBits) /
      2 ^ 7 * 0xFF % M64)) := rfl

/-- Lane value of `SelectSmallerBytes`. -/
theorem min_lane (a b : Nat) (ha : a < 2 ^ 64) (hb : b < 2 ^ 64) :
    ∀ k, k < 8 → laneAt k (SelectSmallerBytes a b) = min (laneAt k a) (laneAt k b) := by
  intro k hk
  rw [SelectSmallerBytes_eq, laneAt_or, laneAt_and, laneAt_and, laneAt_compl64 _ _ hk,
    highMask_lane _ k hk, borrowMask_lane a b ha hb k hk]
  rcases Nat.lt_or_ge (a % 2 ^ (8 * k + 8)) (b % 2 ^ (8 * k + 8)) with hp | hp
  · rw [if_pos hp]
    have h1 : (255 : Nat) * (128 / 128) = 255 := by norm_num
    have h2 : (255 : Nat) ^^^ 255 = 0 := by decide
    rw [h1, h2, Nat.and_zero, Nat.or_zero, byte_and255 _ (laneAt_lt k a)]
    have hle := lane_le_of_prefix_le a b k hk (Nat.le_of_lt hp)
    omega
  · rw [if_neg (Nat.not_lt.mpr hp)]
    have h1 : (255 : Nat) * (0 / 128) = 0 := by norm_num
    have h2 : (0 : Nat) ^^^ 255 = 255 := by decide
    rw [h1, h2, Nat.and_zero, Nat.zero_or, byte_and255 _ (laneAt_lt k b)]
    have hle := lane_le_of_prefix_le b a k hk hp
    omega

theorem SelectLargerBytes_eq (a b : Nat) : SelectLargerBytes a b =
    (a &&& compl64 ((((compl64 a &&& b) ||| ((compl64 a ||| b) &&& sub64 a b)) &&& HighBits) /
      2 ^ 7 * 0xFF % M64)) |||
    (b &&& ((((compl64 a &&& b) ||| ((compl64 a ||| b) &&& sub64 a b)) &&& HighBits) / 2 ^ 7 *
      0xFF % M64)) := rfl

/-- Lane value of `SelectLargerBytes`. -/
theorem max_lane (a b : Nat) (ha : a < 2 ^ 64) (hb : b < 2 ^ 64) :
    ∀ k, k < 8 → laneAt k (SelectLargerBytes a b) = max (laneAt k a) (laneAt k b) := by
  intro k hk
  rw [SelectLargerBytes_eq, laneAt_or, laneAt_and, laneAt_and, laneAt_compl64 _ _ hk,
    highMask_lane _ k hk, borrowMask_lane a b ha hb k hk]
  rcases Nat.lt_or_ge (a % 2 ^ (8 * k + 8)) (b % 2 ^ (8 * k + 8)) with hp | hp
  · rw [if_pos hp]
    have h1 : (255 : Nat) * (128 / 128) = 255 := by norm_num
    have h2 : (255 : Nat) ^^^ 255 = 0 := by decide
    rw [h1, h2, Nat.and_zero, Nat.zero_or, byte_and255 _ (laneAt_lt k b)]
    have hle := lane_le_of_prefix_le a b k hk (Nat.le_of_lt hp)
    omega
  · rw [if_neg (Nat.not_lt.mpr hp)]
    have h1 : (255 : Nat) * (0 / 128) = 0 := by norm_num
    have h2 : (0 : Nat) ^^^ 255 = 255 := by decide
    rw [h1, h2, Nat.and_zero, Nat.or_zero, byte_and255 _ (laneAt_lt k a)]
    have hle := lane_le_of_prefix_le b a k hk hp
    omega

theorem mod_M64_lt (x : Nat) : x % M64 < 2 ^ 64 := by
  simp only [M64]
  exact Nat.mod_lt _ (by norm_num)

theorem sub64_lt (x y : Nat) : sub64 x y < 2 ^ 64 := by
  simp only [sub64]
  exact mod_M64_lt _

theorem addWrap_lt (a b : Nat) : AddBytesWithWrapping a b < 2 ^ 64 := by
  rw [AddBytesWithWrapping_eq]
  exact Nat.xor_lt_two_pow (mod_M64_lt _) (Nat.lt_of_le_of_lt Nat.and_le_right HighBits_lt)

theorem subWrap_lt (a b : Nat) : SubtractBytesWithWrapping a b < 2 ^ 64 := by
  simp only [SubtractBytesWithWrapping]
  exact Nat.xor_lt_two_pow (sub64_lt _ _) (Nat.lt_of_le_of_lt Nat.and_le_right HighBits_lt)

theorem byte_or255 : ∀ x, x < 256 → (x ||| 255) = 255 := by decide

/-- Per-byte carry-out of the wrapped sum, in the arithmetic form the bit-7
algebra leaves behind. -/
theorem carry_eval (x y : Nat) (hx : x < 256) (hy : y < 256) :
    128 * max (min (x / 128) (y / 128))
      (min (max (x / 128) (y / 128)) ((255 - (x + y) % 256) / 128)) =
      if 256 ≤ x + y then 128 else 0 := by
  split_ifs <;> omega

theorem AddBytesWithMaximum_eq (a b : Nat) : AddBytesWithMaximum a b =
    AddBytesWithWrapping a b |||
      ((((a &&& b) ||| ((a ||| b) &&& compl64 (AddBytesWithWrapping a b))) &&& HighBits) /
        2 ^ 7 * 0xFF % M64) := rfl

/-- Lane value of the carry word of `AddBytesWithMaximum`: `0x80` exactly
where the byte sum overflows. -/
theorem carryMask_lane (a b : Nat) (ha : a < 2 ^ 64) (hb : b < 2 ^ 64) :
    ∀ k, k < 8 →
    laneAt k (((a &&& b) ||| ((a ||| b) &&& compl64 (AddBytesWithWrapping a b))) &&& HighBits) =
      if 256 ≤ laneAt k a + laneAt k b then 128 else 0 := by
  intro k hk
  have hxk := laneAt_lt k a
  have hyk := laneAt_lt k b
  rw [laneAt_and, laneAt_HighBits k hk, laneAt_or, laneAt_and, laneAt_and, laneAt_or,
    laneAt_compl64 _ _ hk, addWrap_lane a b ha hb k hk,
    byte_xor255 ((laneAt k a + laneAt k b) % 256) (by omega),
    mask_or (laneAt k a &&& laneAt k b)
      ((laneAt k a ||| laneAt k b) &&& (255 - (laneAt k a + laneAt k b) % 256)) 128,
    mask_and (laneAt k a) (laneAt k b) 128,
    mask_and (laneAt k a ||| laneAt k b) (255 - (laneAt k a + laneAt k b) % 256) 128,
    mask_or (laneAt k a) (laneAt k b) 128,
    byte_and128 (laneAt k a) hxk, byte_and128 (laneAt k b) hyk,
    byte_and128 (255 - (laneAt k a + laneAt k b) % 256) (by omega)]
  have q1 : laneAt k a / 128 ≤ 1 := by omega
  have q2 : laneAt k b / 128 ≤ 1 := by omega
  have q3 : (255 - (laneAt k a + laneAt k b) % 256) / 128 ≤ 1 := by omega
  rw [bit7_and _ q1 _ q2]
  have qm : max (laneAt k a / 128) (laneAt k b / 128) ≤ 1 := by omega
  have qmin : min (laneAt k a / 128) (laneAt k b / 128) ≤ 1 := by omega
  rw [bit7_or _ q1 _ q2, bit7_and _ qm _ q3]
  have q4 : min (max (laneAt k a / 128) (laneAt k b / 128))
      ((255 - (laneAt k a + laneAt k b) % 256) / 128) ≤ 1 := by omega
  rw [bit7_or _ qmin _ q4]
  exact carry_eval (laneAt k a) (laneAt k b) hxk hyk

/-- Lane value of `AddBytesWithMaximum`: the saturating byte sum. -/
theorem addSat_lane (a b : Nat) (ha : a < 2 ^ 64) (hb : b < 2 ^ 64) :
    ∀ k, k < 8 → laneAt k (AddBytesWithMaximum a b) =
      min (laneAt k a + laneAt k b) 255 := by
  intro k hk
  have hxk := laneAt_lt k a
  have hyk := laneAt_lt k b
  rw [AddBytesWithMaximum_eq, laneAt_or, highMask_lane _ k hk, carryMask_lane a b ha hb k hk,
    addWrap_lane a b ha hb k hk]
  rcases Nat.lt_or_ge (laneAt k a + laneAt k b) 256 with hp | hp
  · have hn : ¬ 256 ≤ laneAt k a + laneAt k b := by omega
    rw [if_neg hn, Nat.zero_div, Nat.mul_zero, Nat.or_zero]
    omega
  · have h128 : (128 : Nat) / 128 = 1 := by norm_num
    rw [if_pos hp, h128, Nat.mul_one, byte_or255 ((laneAt k a + laneAt k b) % 256) (by omega)]
    omega

/-- Per-byte borrow of the wrapped byte difference, in the arithmetic form
the bit-7 algebra leaves behind. -/
theorem borrow_local_eval (x y : Nat) (hx : x < 256) (hy : y < 256) :
    128 * max (min ((255 - x) / 128) (y / 128))
      (min (max ((255 - x) / 128) (y / 128)) ((x + 256 - y) % 256 / 128)) =
      if x < y then 128 else 0 := by
  split_ifs <;> omega

theorem SubtractBytesWithMinimum_eq (a b : Nat) : SubtractBytesWithMinimum a b =
    SubtractBytesWithWrapping a b &&& compl64
      ((((compl64 a &&& b) ||| ((compl64 a ||| b) &&& SubtractBytesWithWrapping a b)) &&&
        HighBits) / 2 ^ 7 * 0xFF % M64) := rfl

/-- Lane value of the borrow word of `SubtractBytesWithMinimum`: `0x80`
exactly where the byte of `a` is below the byte of `b`.  Unlike the
cumulative borrow of the full-width difference, this formula applies the
per-lane wrapped difference, so each lane is independent. -/
theorem borrowLocal_lane (a b : Nat) (ha : a < 2 ^ 64) (hb : b < 2 ^ 64) :
    ∀ k, k < 8 →
    laneAt k (((compl64 a &&& b) ||| ((compl64 a ||| b) &&& SubtractBytesWithWrapping a b)) &&&
        HighBits) = if laneAt k a < laneAt k b then 128 else 0 := by
  intro k hk
  have hxk := laneAt_lt k a
  have hyk := laneAt_lt k b
  rw [laneAt_and, laneAt_HighBits k hk, laneAt_or, laneAt_and, laneAt_and, laneAt_or,
    laneAt_compl64 k a hk, byte_xor255 _ hxk, subWrap_lane a b ha hb k hk,
    mask_or ((255 - laneAt k a) &&& laneAt k b)
      (((255 - laneAt k a) ||| laneAt k b) &&& ((laneAt k a + 256 - laneAt k b) % 256)) 128,
    mask_and (255 - laneAt k a) (laneAt k b) 128,
    mask_and ((255 - laneAt k a) ||| laneAt k b) ((laneAt k a + 256 - laneAt k b) % 256) 128,
    mask_or (255 - laneAt k a) (laneAt k b) 128,
    byte_and128 (255 - laneAt k a) (by omega),
    byte_and128 (laneAt k b) hyk,
    byte_and128 ((laneAt k a + 256 - laneAt k b) % 256) (by omega)]
  have q1 : (255 - laneAt k a) / 128 ≤ 1 := by omega
  have q2 : laneAt k b / 128 ≤ 1 := by omega
  have q3 : (laneAt k a + 256 - laneAt k b) % 256 / 128 ≤ 1 := by omega
  rw [bit7_and _ q1 _ q2]
  have qm : max ((255 - laneAt k a) / 128) (laneAt k b / 128) ≤ 1 := by omega
  have qmin : min ((255 - laneAt k a) / 128) (laneAt k b / 128) ≤ 1 := by omega
  rw [bit7_or _ q1 _ q2, bit7_and _ qm _ q3]
  have q4 : min (max ((255 - laneAt k a) / 128) (laneAt k b / 128))
      ((laneAt k a + 256 - laneAt k b) % 256 / 128) ≤ 1 := by omega
  rw [bit7_or _ qmin _ q4]
  exact borrow_local_eval (laneAt k a) (laneAt k b) hxk hyk

/-- Lane value of `SubtractBytesWithMinimum`: the truncated byte difference. -/
theorem subSat_lane (a b : Nat) (ha : a < 2 ^ 64) (hb : b < 2 ^ 64) :
    ∀ k, k < 8 → laneAt k (SubtractBytesWithMinimum a b) = laneAt k a - laneAt k b := by
  intro k hk
  have hxk := laneAt_lt k a
  have hyk := laneAt_lt k b
  rw [SubtractBytesWithMinimum_eq, laneAt_and, laneAt_compl64 _ _ hk, highMask_lane _ k hk,
    borrowLocal_lane a b ha hb k hk, subWrap_lane a b ha hb k hk]
  rcases Nat.lt_or_ge (laneAt k a) (laneAt k b) with hp | hp
  · have h1 : (255 : Nat) * (128 / 128) = 255 := by norm_num
    have h2 : (255 : Nat) ^^^ 255 = 0 := by decide
    rw [if_pos hp, h1, h2, Nat.and_zero]
    omega
  · have h1 : (255 : Nat) * (0 / 128) = 0 := by norm_num
    have h2 : (0 : Nat) ^^^ 255 = 255 := by decide
    rw [if_neg (Nat.not_lt.mpr hp), h1, h2,
      byte_and255 ((laneAt k a + 256 - laneAt k b) % 256) (by omega)]
    omega

theorem AbsoluteDifferenceBetweenBytes_eq (a b : Nat) : AbsoluteDifferenceBetweenBytes a b =
    sub64 (SelectLargerBytes a b ||| HighBits) (andNot (SelectSmallerBytes a b) HighBits) ^^^
      ((SelectLargerBytes a b ^^^ compl64 (SelectSmallerBytes a b)) &&& HighBits) := rfl

/-- Lane value of `AbsoluteDifferenceBetweenBytes`: the unsigned distance of
the two bytes, obtained as the wrapped difference of the lane-wise maximum
and minimum. -/
theorem absDiff_lane (a b : Nat) (ha : a < 2 ^ 64) (hb : b < 2 ^ 64) :
    ∀ k, k < 8 → laneAt k (AbsoluteDifferenceBetweenBytes a b) =
      max (laneAt k a) (laneAt k b) - min (laneAt k a) (laneAt k b) := by
  have hn : SelectLargerBytes a b < 2 ^ 64 := by
    rw [SelectLargerBytes_eq]
    exact Nat.or_lt_two_pow (Nat.lt_of_le_of_lt Nat.and_le_left ha)
      (Nat.lt_of_le_of_lt Nat.and_le_left hb)
  have hm : SelectSmallerBytes a b < 2 ^ 64 := by
    rw [SelectSmallerBytes_eq]
    exact Nat.or_lt_two_pow (Nat.lt_of_le_of_lt Nat.and_le_left ha)
      (Nat.lt_of_le_of_lt Nat.and_le_left hb)
  intro k hk
  rw [AbsoluteDifferenceBetweenBytes_eq, subWrapAux_lane _ _ hn hm k hk,
    min_lane a b ha hb k hk, max_lane a b ha hb k hk]
  have h1 := laneAt_lt k a
  have h2 := laneAt_lt k b
  omega

/-- Lane value of the guard-bit difference `(v | HighBits) - (cm &^ HighBits)`
shared by the comparators: each lane subtracts the low 7 bits with a guard
bit, so no borrow crosses a lane. -/
theorem guardDiff_lane (x y : Nat) (hx : x < 2 ^ 64) (hy : y < 2 ^ 64) :
    ∀ k, k < 8 → laneAt k (sub64 (x ||| HighBits) (andNot y HighBits)) =
      laneAt k x % 128 + 128 - laneAt k y % 128 := by
  have hM : (x ||| HighBits) < 2 ^ 64 := Nat.or_lt_two_pow hx HighBits_lt
  have hS : andNot y HighBits < 2 ^ 64 := Nat.lt_of_le_of_lt Nat.and_le_left hy
  have hc : (128 : Nat) ^^^ 255 = 127 := by decide
  have hMl : ∀ j, j < 8 → laneAt j (x ||| HighBits) = laneAt j x % 128 + 128 := by
    intro j hj
    rw [laneAt_or, laneAt_HighBits j hj, byte_or128 _ (laneAt_lt j x)]
  have hSl : ∀ j, j < 8 → laneAt j (andNot y HighBits) = laneAt j y % 128 := by
    intro j hj
    rw [andNot, laneAt_and, laneAt_compl64 j HighBits hj, laneAt_HighBits j hj, hc,
      byte_and127 _ (laneAt_lt j y)]
  have hle : ∀ j, j < 8 → laneAt j (andNot y HighBits) ≤ laneAt j (x ||| HighBits) := by
    intro j hj
    rw [hMl j hj, hSl j hj]
    omega
  have hsub : sub64 (x ||| HighBits) (andNot y HighBits) =
      (x ||| HighBits) - andNot y HighBits :=
    sub64_eq_sub _ _ hM (le_of_lanes_le _ _ hM hS hle)
  intro k hk
  rw [hsub, laneAt_sub _ _ hM hS hle k hk, hMl k hk, hSl k hk]

theorem HighBitWhereLess_eq (v cm : Nat) : HighBitWhereLess v cm =
    ((((v &&& (v ^^^ cm)) ||| (sub64 (v ||| HighBits) (andNot cm HighBits) &&&
        compl64 (v ^^^ cm))) &&& HighBits) ^^^ HighBits) &&& HighBits := rfl

/-- Lane value of `HighBitWhereLess`: `0x80` exactly where the byte of `v`
is unsigned-below the byte of `cm`. -/
theorem less_lane (v cm : Nat) (hv : v < 2 ^ 64) (hc : cm < 2 ^ 64) :
    ∀ k, k < 8 → laneAt k (HighBitWhereLess v cm) =
      if laneAt k v < laneAt k cm then 128 else 0 := by
  intro k hk
  have hxk := laneAt_lt k v
  have hyk := laneAt_lt k cm
  have hek : laneAt k v ^^^ laneAt k cm < 256 := xor_lt_256 _ _ hxk hyk
  have hdk := guardDiff_lane v cm hv hc k hk
  rw [HighBitWhereLess_eq]
  simp only [laneAt_and, laneAt_or, laneAt_xor]
  rw [laneAt_HighBits k hk, laneAt_compl64 _ _ hk, laneAt_xor, hdk,
    byte_xor255 (laneAt k v ^^^ laneAt k cm) hek,
    mask_or (laneAt k v &&& (laneAt k v ^^^ laneAt k cm))
      ((laneAt k v % 128 + 128 - laneAt k cm % 128) &&&
        (255 - (laneAt k v ^^^ laneAt k cm))) 128,
    mask_and (laneAt k v) (laneAt k v ^^^ laneAt k cm) 128,
    mask_and (laneAt k v % 128 + 128 - laneAt k cm % 128)
      (255 - (laneAt k v ^^^ laneAt k cm)) 128,
    byte_and128 (laneAt k v) hxk,
    byte_and128 (laneAt k v ^^^ laneAt k cm) hek,
    byte_and128 (laneAt k v % 128 + 128 - laneAt k cm % 128) (by omega),
    byte_and128 (255 - (laneAt k v ^^^ laneAt k cm)) (by omega)]
  have q1 : laneAt k v / 128 ≤ 1 := by omega
  have qe : (laneAt k v ^^^ laneAt k cm) / 128 ≤ 1 := by omega
  have qd : (laneAt k v % 128 + 128 - laneAt k cm % 128) / 128 ≤ 1 := by omega
  have qe2 : (255 - (laneAt k v ^^^ laneAt k cm)) / 128 ≤ 1 := by omega
  rw [bit7_and _ q1 _ qe, bit7_and _ qd _ qe2]
  have qm1 : min (laneAt k v / 128) ((laneAt k v ^^^ laneAt k cm) / 128) ≤ 1 := by omega
  have qm2 : min ((laneAt k v % 128 + 128 - laneAt k cm % 128) / 128)
      ((255 - (laneAt k v ^^^ laneAt k cm)) / 128) ≤ 1 := by omega
  rw [bit7_or _ qm1 _ qm2]
  have qS : max (min (laneAt k v / 128) ((laneAt k v ^^^ laneAt k cm) / 128))
      (min ((laneAt k v % 128 + 128 - laneAt k cm % 128) / 128)
        ((255 - (laneAt k v ^^^ laneAt k cm)) / 128)) ≤ 1 := by omega
  rw [bit7_xor128 _ qS]
  have qS2 : 1 - max (min (laneAt k v / 128) ((laneAt k v ^^^ laneAt k cm) / 128))
      (min ((laneAt k v % 128 + 128 - laneAt k cm % 128) / 128)
        ((255 - (laneAt k v ^^^ laneAt k cm)) / 128)) ≤ 1 := by omega
  rw [bit7_and128 _ qS2]
  have he := byte_xor_div128 (laneAt k v) (laneAt k cm) hxk hyk
  split_ifs <;> omega

theorem HighBitWhereGreater_eq_less (v cm : Nat) :
    HighBitWhereGreater v cm = HighBitWhereLess cm v := rfl

/-- Lane value of `HighBitWhereGreater`: `0x80` exactly where the byte of
`v` is unsigned-above the byte of `cm`. -/
theorem greater_lane (v cm : Nat) (hv : v < 2 ^ 64) (hc : cm < 2 ^ 64) :
    ∀ k, k < 8 → laneAt k (HighBitWhereGreater v cm) =
      if laneAt k cm < laneAt k v then 128 else 0 := by
  intro k hk
  rw [HighBitWhereGreater_eq_less]
  exact less_lane cm v hc hv k hk

/-- The per-byte equality flag of `HighBitWhereEqual`, settled over the 256
byte values of the lane of `v XOR cm`. -/
theorem byte_eqflag : ∀ e, e < 256 →
    (((e % 128 + 127 ||| e) ^^^ 255) &&& 128) &&& 128 = if e = 0 then 128 else 0 := by decide

theorem HighBitWhereEqual_eq (v cm : Nat) : HighBitWhereEqual v cm =
    (compl64 ((((v ^^^ cm) &&& 0x7F7F7F7F7F7F7F7F) + 0x7F7F7F7F7F7F7F7F) % M64 ||| (v ^^^ cm))
      &&& HighBits) &&& HighBits := rfl

/-- Lane value of `HighBitWhereEqual`: `0x80` exactly where the bytes of `v`
and `cm` agree. -/
theorem equal_lane (v cm : Nat) (hv : v < 2 ^ 64) (hc : cm < 2 ^ 64) :
    ∀ k, k < 8 → laneAt k (HighBitWhereEqual v cm) =
      if laneAt k v = laneAt k cm then 128 else 0 := by
  have hx : v ^^^ cm < 2 ^ 64 := Nat.xor_lt_two_pow hv hc
  have hA : (v ^^^ cm) &&& 0x7F7F7F7F7F7F7F7F < 2 ^ 64 :=
    Nat.lt_of_le_of_lt Nat.and_le_left hx
  have hB : (0x7F7F7F7F7F7F7F7F : Nat) < 2 ^ 64 := by norm_num
  have hAl : ∀ j, j < 8 → laneAt j ((v ^^^ cm) &&& 0x7F7F7F7F7F7F7F7F) =
      laneAt j (v ^^^ cm) % 128 := by
    intro j hj
    rw [laneAt_and, laneAt_7F j hj, byte_and127 _ (laneAt_lt j (v ^^^ cm))]
  have hlane : ∀ j, j < 8 → laneAt j ((v ^^^ cm) &&& 0x7F7F7F7F7F7F7F7F) +
      laneAt j (0x7F7F7F7F7F7F7F7F : Nat) < 256 := by
    intro j hj
    rw [hAl j hj, laneAt_7F j hj]
    have := laneAt_lt j (v ^^^ cm)
    omega
  have hsum : ((v ^^^ cm) &&& 0x7F7F7F7F7F7F7F7F) + 0x7F7F7F7F7F7F7F7F < 2 ^ 64 := by
    have h1 : (v ^^^ cm) &&& 0x7F7F7F7F7F7F7F7F ≤ 0x7F7F7F7F7F7F7F7F := Nat.and_le_right
    omega
  intro k hk
  have hek := laneAt_lt k (v ^^^ cm)
  rw [HighBitWhereEqual_eq, laneAt_and, laneAt_HighBits k hk, laneAt_and,
    laneAt_HighBits k hk, laneAt_compl64 _ _ hk, laneAt_or, M64_eq, Nat.mod_eq_of_lt hsum,
    laneAt_add _ _ hA hB hlane k hk, hAl k hk, laneAt_7F k hk,
    byte_eqflag _ hek, laneAt_xor]
  simp only [Nat.xor_eq_zero]

theorem AverageBytes_eq (a b : Nat) : AverageBytes a b =
    ((a &&& b) + ((a ^^^ b) &&& 0xFEFEFEFEFEFEFEFE) / 2 ^ 1) % M64 := rfl

theorem avg_lt (a b : Nat) : AverageBytes a b < 2 ^ 64 := by
  rw [AverageBytes_eq]
  exact mod_M64_lt _

/-- Lane value of `AverageBytes`: the floored mean of the two bytes,
computed without overflow as carry plus half the carry-free sum. -/
theorem avg_lane (a b : Nat) (ha : a < 2 ^ 64) (hb : b < 2 ^ 64) :
    ∀ k, k < 8 → laneAt k (AverageBytes a b) = (laneAt k a + laneAt k b) / 2 := by
  have hx : a ^^^ b < 2 ^ 64 := Nat.xor_lt_two_pow ha hb
  have hco : a &&& b < 2 ^ 64 := Nat.lt_of_le_of_lt Nat.and_le_left ha
  have hdf : (a ^^^ b) &&& 0xFEFEFEFEFEFEFEFE < 2 ^ 64 :=
    Nat.lt_of_le_of_lt Nat.and_le_left hx
  have hdl : ∀ j, j < 8 → laneAt j ((a ^^^ b) &&& 0xFEFEFEFEFEFEFEFE) =
      2 * (laneAt j (a ^^^ b) / 2) := by
    intro j hj
    rw [laneAt_and, laneAt_FE j hj, byte_and254 _ (laneAt_lt j (a ^^^ b))]
  have hde : ∀ j, j < 8 → laneAt j ((a ^^^ b) &&& 0xFEFEFEFEFEFEFEFE) % 2 = 0 := by
    intro j hj
    rw [hdl j hj]
    omega
  have hW : ((a ^^^ b) &&& 0xFEFEFEFEFEFEFEFE) / 2 < 2 ^ 64 :=
    Nat.lt_of_le_of_lt (Nat.div_le_self _ _) hdf
  have hdiv := laneAt_div2 _ hdf hde
  have hlane : ∀ j, j < 8 → laneAt j (a &&& b) +
      laneAt j (((a ^^^ b) &&& 0xFEFEFEFEFEFEFEFE) / 2) < 256 := by
    intro j hj
    rw [hdiv j hj, hdl j hj, laneAt_and, laneAt_xor]
    have h2 := two_mul_and_add_xor (laneAt j a) (laneAt j b)
    have hja := laneAt_lt j a
    have hjb := laneAt_lt j b
    omega
  have hAB : (a &&& b) + ((a ^^^ b) &&& 0xFEFEFEFEFEFEFEFE) / 2 < 2 ^ 64 := by
    have h2 := two_mul_and_add_xor a b
    have hmle : (a ^^^ b) &&& 0xFEFEFEFEFEFEFEFE ≤ a ^^^ b := Nat.and_le_left
    omega
  have h21 : (2 : Nat) ^ 1 = 2 := by norm_num
  intro k hk
  rw [AverageBytes_eq, h21, M64_eq, Nat.mod_eq_of_lt hAB,
    laneAt_add _ _ hco hW hlane k hk, hdiv k hk, hdl k hk, laneAt_and, laneAt_xor]
  have h2 := two_mul_and_add_xor (laneAt k a) (laneAt k b)
  have hka := laneAt_lt k a
  have hkb := laneAt_lt k b
  omega

theorem SelectByLowBit_eq (a b mask : Nat) : SelectByLowBit a b mask =
    (a &&& mask * 0xFF % M64) ||| (b &&& compl64 (mask * 0xFF % M64)) := rfl

/-- Lane value of `SelectByLowBit` when every flag lane is 0 or 1: the lane
of `a` where the flag is 1, the lane of `b` where it is 0. -/
theorem select_lane (a b f : Nat) (ha : a < 2 ^ 64) (hb : b < 2 ^ 64) (hf : f < 2 ^ 64)
    (h1 : ∀ j, j < 8 → laneAt j f ≤ 1) :
    ∀ k, k < 8 → laneAt k (SelectByLowBit a b f) =
      if laneAt k f = 1 then laneAt k a else laneAt k b := by
  obtain ⟨hml, hmf⟩ := laneAt_mul255 f hf h1
  intro k hk
  have hxk := laneAt_lt k a
  have hyk := laneAt_lt k b
  have htk := h1 k hk
  rw [SelectByLowBit_eq, laneAt_or, laneAt_and, laneAt_and, laneAt_compl64 _ _ hk, M64_eq,
    Nat.mod_eq_of_lt hml, hmf k hk]
  rcases Nat.le_one_iff_eq_zero_or_eq_one.mp htk with h0 | h0 <;> rw [h0]
  · rw [Nat.mul_zero, Nat.and_zero, Nat.zero_xor, byte_and255 _ hyk, Nat.zero_or]
    simp
  · have h2 : (255 : Nat) ^^^ 255 = 0 := by decide
    rw [Nat.mul_one, byte_and255 _ hxk, h2, Nat.and_zero, Nat.or_zero]
    simp

/-- The gather multiply of `ExtractLowBits` on an explicit 0/1 lane sum,
checked over the 256 combinations of the eight flag bits: bit `i` of the
top output byte is lane `i`'s bit. -/
theorem gather_combo : ∀ t0, t0 < 2 → ∀ t1, t1 < 2 → ∀ t2, t2 < 2 → ∀ t3, t3 < 2 →
    ∀ t4, t4 < 2 → ∀ t5, t5 < 2 → ∀ t6, t6 < 2 → ∀ t7, t7 < 2 →
    (t0 + 2 ^ 8 * t1 + 2 ^ 16 * t2 + 2 ^ 24 * t3 + 2 ^ 32 * t4 + 2 ^ 40 * t5 +
      2 ^ 48 * t6 + 2 ^ 56 * t7) * packMask % 2 ^ 64 / 2 ^ 56 % 256 =
    t0 + 2 * t1 + 4 * t2 + 8 * t3 + 16 * t4 + 32 * t5 + 64 * t6 + 128 * t7 := by
  intro t0 h0 t1 h1 t2 h2 t3 h3 t4 h4 t5 h5 t6 h6 t7 h7
  interval_cases t0 <;> interval_cases t1 <;> interval_cases t2 <;> interval_cases t3 <;>
    interval_cases t4 <;> interval_cases t5 <;> interval_cases t6 <;> interval_cases t7 <;>
    decide

theorem laneAt_LowBits : ∀ k, k < 8 → laneAt k LowBits = 1 := by decide

/-- `ExtractLowBits` on a word whose lanes are all 0 or 1: the output byte
is the little-endian packing of the eight lane bits, lane `i` at weight
`2 ^ i`. -/
theorem ExtractLowBits_lanes (v : Nat) (hv : v < 2 ^ 64) (h1 : ∀ j, j < 8 → laneAt j v ≤ 1) :
    ExtractLowBits v = laneAt 0 v + 2 * laneAt 1 v + 4 * laneAt 2 v + 8 * laneAt 3 v +
      16 * laneAt 4 v + 32 * laneAt 5 v + 64 * laneAt 6 v + 128 * laneAt 7 v := by
  have hd := lane_decomp v hv
  have i0 := h1 0 (by norm_num)
  have i1 := h1 1 (by norm_num)
  have i2 := h1 2 (by norm_num)
  have i3 := h1 3 (by norm_num)
  have i4 := h1 4 (by norm_num)
  have i5 := h1 5 (by norm_num)
  have i6 := h1 6 (by norm_num)
  have i7 := h1 7 (by norm_num)
  conv_lhs => rw [ExtractLowBits, M64_eq, hd]
  exact gather_combo (laneAt 0 v) (by omega) (laneAt 1 v) (by omega) (laneAt 2 v) (by omega)
    (laneAt 3 v) (by omega) (laneAt 4 v) (by omega) (laneAt 5 v) (by omega)
    (laneAt 6 v) (by omega) (laneAt 7 v) (by omega)

/-!
The claims.
-/

/-- C1: the spec says pack (`BytesToLanes`) is total, guarding the empty
buffer to return zero lanes and zero consumed.  The code takes `&b[0]`
before any length test, so the empty buffer raises an index-out-of-range
panic instead — modelled by `none` — refuting the explicit-guard claim. -/
theorem C1_pack_empty_none : BytesToLanes [] = none := rfl

/-- C2 (amended): when every lane of the flag word is 0 or 1,
`SelectByLowBit` returns lane-wise the byte of `a` where the flag lane is 1
and the byte of `b` where it is 0.  The original claim that higher bits of a
flag lane are ignored is false: the mask `flags * 0xFF` smears them. -/
theorem C2_select_by_flag (a b f : Nat) (ha : a < 2 ^ 64) (hb : b < 2 ^ 64)
    (hf : f < 2 ^ 64) (h1 : ∀ j, j < 8 → laneAt j f ≤ 1) :
    ∀ k, k < 8 → laneAt k (SelectByLowBit a b f) =
      if laneAt k f = 1 then laneAt k a else laneAt k b :=
  select_lane a b f ha hb hf h1

/-- C2 counterexample: flag lane 0 holds 2, whose low bit is 0, so the claim
predicts byte 0 of `b`, here 0; the code returns 254 because bit 1 of the
flag spreads across the lane in the mask `flags * 0xFF`. -/
theorem C2_counterexample : laneAt 0 (SelectByLowBit 255 0 2) = 254 := by decide

/-- C2 witness: at `a = 255`, `b = 0`, flag word 1 the amended statement
evaluates on lane 0. -/
theorem C2_select_by_flag_witness :
    laneAt 0 (SelectByLowBit 255 0 1) =
      if laneAt 0 (1 : Nat) = 1 then laneAt 0 (255 : Nat) else laneAt 0 (0 : Nat) :=
  C2_select_by_flag 255 0 1 (by norm_num) (by norm_num) (by norm_num) (by decide)
    0 (by norm_num)

/-- C3: each comparator sets lane `k` to 0x80 exactly when its per-byte
predicate (equal, unsigned-less, unsigned-greater) holds between the bytes
of `v` and `cm`, and to 0x00 otherwise — never any other value. -/
theorem C3_comparators (v cm : Nat) (hv : v < 2 ^ 64) (hc : cm < 2 ^ 64) :
    ∀ k, k < 8 →
      laneAt k (HighBitWhereEqual v cm) =
        (if laneAt k v = laneAt k cm then 128 else 0) ∧
      laneAt k (HighBitWhereLess v cm) =
        (if laneAt k v < laneAt k cm then 128 else 0) ∧
      laneAt k (HighBitWhereGreater v cm) =
        (if laneAt k cm < laneAt k v then 128 else 0) :=
  fun k hk => ⟨equal_lane v cm hv hc k hk, less_lane v cm hv hc k hk,
    greater_lane v cm hv hc k hk⟩

/-- C3 witness: the three comparators evaluated on lane 0 of `v = 4`,
`cm = 5`. -/
theorem C3_comparators_witness :
    laneAt 0 (HighBitWhereEqual 4 5) =
      (if laneAt 0 (4 : Nat) = laneAt 0 (5 : Nat) then 128 else 0) ∧
    laneAt 0 (HighBitWhereLess 4 5) =
      (if laneAt 0 (4 : Nat) < laneAt 0 (5 : Nat) then 128 else 0) ∧
    laneAt 0 (HighBitWhereGreater 4 5) =
      (if laneAt 0 (5 : Nat) < laneAt 0 (4 : Nat) then 128 else 0) :=
  C3_comparators 4 5 (by norm_num) (by norm_num) 0 (by norm_num)

/-- C4: lane `k` of `SelectSmallerBytes` is the unsigned minimum of the two
bytes, of `SelectLargerBytes` the maximum, and of
`AbsoluteDifferenceBetweenBytes` their unsigned distance; each lane depends
only on the operands' same lane. -/
theorem C4_min_max_absdiff (a b : Nat) (ha : a < 2 ^ 64) (hb : b < 2 ^ 64) :
    ∀ k, k < 8 →
      laneAt k (SelectSmallerBytes a b) = min (laneAt k a) (laneAt k b) ∧
      laneAt k (SelectLargerBytes a b) = max (laneAt k a) (laneAt k b) ∧
      laneAt k (AbsoluteDifferenceBetweenBytes a b) =
        max (laneAt k a) (laneAt k b) - min (laneAt k a) (laneAt k b) :=
  fun k hk => ⟨min_lane a b ha hb k hk, max_lane a b ha hb k hk,
    absDiff_lane a b ha hb k hk⟩

/-- C4 witness: min, max and absolute difference evaluated on lane 0 of
`a = 3`, `b = 200`. -/
theorem C4_min_max_absdiff_witness :
    laneAt 0 (SelectSmallerBytes 3 200) = min (laneAt 0 (3 : Nat)) (laneAt 0 (200 : Nat)) ∧
    laneAt 0 (SelectLargerBytes 3 200) = max (laneAt 0 (3 : Nat)) (laneAt 0 (200 : Nat)) ∧
    laneAt 0 (AbsoluteDifferenceBetweenBytes 3 200) =
      max (laneAt 0 (3 : Nat)) (laneAt 0 (200 : Nat)) -
        min (laneAt 0 (3 : Nat)) (laneAt 0 (200 : Nat)) :=
  C4_min_max_absdiff 3 200 (by norm_num) (by norm_num) 0 (by norm_num)

/-- C5: lane `k` of `AddBytesWithWrapping` is the byte sum modulo 256 and
lane `k` of `SubtractBytesWithWrapping` is the byte difference modulo 256
(as integers); the per-lane equalities show carry and borrow never leak
into a neighbouring lane. -/
theorem C5_wrapping_add_sub (a b : Nat) (ha : a < 2 ^ 64) (hb : b < 2 ^ 64) :
    ∀ k, k < 8 →
      laneAt k (AddBytesWithWrapping a b) = (laneAt k a + laneAt k b) % 256 ∧
      (laneAt k (SubtractBytesWithWrapping a b) : Int) =
        ((laneAt k a : Int) - (laneAt k b : Int)) % 256 := by
  intro k hk
  refine ⟨addWrap_lane a b ha hb k hk, ?_⟩
  have h := subWrap_lane a b ha hb k hk
  have hx := laneAt_lt k a
  have hy := laneAt_lt k b
  omega

/-- C5 witness: wrapping add and subtract evaluated on lane 0 of `a = 200`,
`b = 100`. -/
theorem C5_wrapping_add_sub_witness :
    laneAt 0 (AddBytesWithWrapping 200 100) =
      (laneAt 0 (200 : Nat) + laneAt 0 (100 : Nat)) % 256 ∧
    (laneAt 0 (SubtractBytesWithWrapping 200 100) : Int) =
      ((laneAt 0 (200 : Nat) : Int) - (laneAt 0 (100 : Nat) : Int)) % 256 :=
  C5_wrapping_add_sub 200 100 (by norm_num) (by norm_num) 0 (by norm_num)

/-- C6: lane `k` of `AddBytesWithMaximum` is the byte sum clamped to 255,
and lane `k` of `SubtractBytesWithMinimum` is the byte difference when it is
non-negative and 0 otherwise. -/
theorem C6_saturating (a b : Nat) (ha : a < 2 ^ 64) (hb : b < 2 ^ 64) :
    ∀ k, k < 8 →
      laneAt k (AddBytesWithMaximum a b) = min (laneAt k a + laneAt k b) 255 ∧
      laneAt k (SubtractBytesWithMinimum a b) =
        (if laneAt k b ≤ laneAt k a then laneAt k a - laneAt k b else 0) := by
  intro k hk
  refine ⟨addSat_lane a b ha hb k hk, ?_⟩
  have h := subSat_lane a b ha hb k hk
  split_ifs <;> omega

/-- C6 witness: saturating add and subtract evaluated on lane 0 of
`a = 200`, `b = 100`. -/
theorem C6_saturating_witness :
    laneAt 0 (AddBytesWithMaximum 200 100) =
      min (laneAt 0 (200 : Nat) + laneAt 0 (100 : Nat)) 255 ∧
    laneAt 0 (SubtractBytesWithMinimum 200 100) =
      (if laneAt 0 (100 : Nat) ≤ laneAt 0 (200 : Nat) then
        laneAt 0 (200 : Nat) - laneAt 0 (100 : Nat) else 0) :=
  C6_saturating 200 100 (by norm_num) (by norm_num) 0 (by norm_num)

/-- C7: the spec's round trip `unpack(pack(S).lanes) + S[consumed:] == S`
fails on any buffer of 1 to 7 bytes: pack returns zero lanes, and unpack
takes `&lanes[0]` on the empty lane slice and panics (modelled by `none`)
instead of reproducing `S`. -/
theorem C7_roundtrip_short_none : packUnpackRoundTrip [42] = none := rfl

/-- C8: lane `k` of `AverageBytes` is the floored mean of the two bytes;
in particular the average is idempotent and the average of broadcast 0 and
broadcast 255 is broadcast 127 (floor, not round). -/
theorem C8_average_props (a b : Nat) (ha : a < 2 ^ 64) (hb : b < 2 ^ 64) :
    (∀ k, k < 8 → laneAt k (AverageBytes a b) = (laneAt k a + laneAt k b) / 2) ∧
      AverageBytes a a = a ∧ AverageBytes (Dupe 0) (Dupe 255) = Dupe 127 := by
  refine ⟨avg_lane a b ha hb, ?_, by decide⟩
  apply eq_of_laneAt_eq _ _ (avg_lt a a) ha
  intro k hk
  rw [avg_lane a a ha ha k hk]
  omega

/-- C8 witness: idempotence of the average at `a = 10` (second component of
the claim applied at `a = 10`, `b = 20`). -/
theorem C8_average_props_witness : AverageBytes 10 10 = 10 :=
  (C8_average_props 10 20 (by norm_num) (by norm_num)).2.1

/-- C9 (amended): for a flag word whose lanes are each 0 or 1
(`v &&& LowBits = v`), `ExtractLowBits` packs lane `i`'s low bit into output
bit `i` — lane 0 into the least-significant bit — not into bit `7 − i` as
claimed. -/
theorem C9_gather_low_bits (v : Nat) (hv : v < 2 ^ 64) (hl : v &&& LowBits = v) :
    ∀ i, i < 8 → (ExtractLowBits v).testBit i = v.testBit (8 * i) := by
  have h1 : ∀ j, j < 8 → laneAt j v ≤ 1 := by
    intro j hj
    conv_lhs => rw [← hl]
    rw [laneAt_and, laneAt_LowBits j hj, Nat.and_one_is_mod]
    omega
  have hE := ExtractLowBits_lanes v hv h1
  have hbit : ∀ j : Nat, v / 2 ^ (8 * j) % 2 = laneAt j v % 2 := by
    intro j
    simp only [laneAt]
    omega
  have i0 := h1 0 (by norm_num)
  have i1 := h1 1 (by norm_num)
  have i2 := h1 2 (by norm_num)
  have i3 := h1 3 (by norm_num)
  have i4 := h1 4 (by norm_num)
  have i5 := h1 5 (by norm_num)
  have i6 := h1 6 (by norm_num)
  have i7 := h1 7 (by norm_num)
  intro i hi
  rw [hE]
  simp only [Nat.testBit_to_div_mod]
  rw [decide_eq_decide, hbit i]
  interval_cases i <;> omega

/-- C9 counterexample: `v = 1` has only lane 0's low bit set, and the output
is 1 — bit 0 — where the claimed bit-(7−i) order predicts 2^7 = 128. -/
theorem C9_counterexample : ExtractLowBits 1 = 1 := by decide

/-- C9 witness: the amended bit placement evaluated at `v = 0x101`
(lanes 0 and 1 set) and output bit 1. -/
theorem C9_gather_low_bits_witness :
    (ExtractLowBits 257).testBit 1 = (257 : Nat).testBit (8 * 1) :=
  C9_gather_low_bits 257 (by norm_num) (by decide) 1 (by norm_num)

/-- C10: wrapping per-lane subtraction of `b` exactly undoes wrapping
per-lane addition of `b`. -/
theorem C10_subwrap_undoes_addwrap (a b : Nat) (ha : a < 2 ^ 64) (hb : b < 2 ^ 64) :
    SubtractBytesWithWrapping (AddBytesWithWrapping a b) b = a := by
  apply eq_of_laneAt_eq _ _ (subWrap_lt _ _) ha
  intro k hk
  rw [subWrap_lane _ _ (addWrap_lt a b) hb k hk, addWrap_lane a b ha hb k hk]
  have hx := laneAt_lt k a
  have hy := laneAt_lt k b
  omega

/-- C10 witness: the add-then-subtract round trip at `a = 123`, `b = 234`. -/
theorem C10_subwrap_undoes_addwrap_witness :
    SubtractBytesWithWrapping (AddBytesWithWrapping 123 234) 234 = 123 :=
  C10_subwrap_undoes_addwrap 123 234 (by norm_num) (by norm_num)

end Swar
